import Mathlib

/-!
Shallow embedding of `psl-types` (`src/lib.rs`): common types for public
suffix implementation crates.  Byte strings are `List Nat`, the classifier
(`List::find`) is an arbitrary function on the reversed label sequence, and
usize arithmetic is modelled with explicit wrap-around at `2 ^ 64`
(Rust release-mode semantics).
-/

namespace Psl

/-- Modulus of the 64-bit `usize` type, written as a literal. -/
def USIZE : Nat := 18446744073709551616

/-- Wrapping `usize` subtraction `a - b` (release-mode semantics of Rust's
`-` on `usize`); faithful for representable `a < USIZE`. -/
def wsub (a b : Nat) : Nat := (a + USIZE - b % USIZE) % USIZE

/-- Wrapping `usize` addition `a + b`. -/
def wadd (a b : Nat) : Nat := (a + b) % USIZE

/-- The byte `b'.'`. -/
def dot : Nat := 46

/-- Suffix classification type (`enum Type { Icann, Private }` in the source). -/
inductive Typ where
  | icann
  | priv
  deriving DecidableEq, Repr

/-- Information about the suffix returned by a classifier
(`struct Info { len: usize, typ: Option<Type> }`). -/
structure Info where
  len : Nat
  typ : Option Typ
  deriving DecidableEq, Repr

/-- The suffix of a domain name
(`struct Suffix { bytes: &[u8], fqdn: bool, typ: Option<Type> }`). -/
structure Suffix where
  bytes : List Nat
  fqdn : Bool
  typ : Option Typ
  deriving DecidableEq, Repr

/-- A registrable domain name
(`struct Domain { bytes: &[u8], suffix: Suffix }`). -/
structure Domain where
  bytes : List Nat
  suffix : Suffix
  deriving DecidableEq, Repr

/-- Splitting a byte string on `b'.'`, in source order, keeping empty
segments, as Rust's `slice::split(|x| *x == b'.')` does. -/
def splitOnDot : List Nat → List (List Nat)
  | [] => [[]]
  | b :: rest =>
    if b = dot then [] :: splitOnDot rest
    else
      match splitOnDot rest with
      | [] => [[b]]
      | l :: ls => (b :: l) :: ls

/-- Whether the name ends with a trailing dot (`name.ends_with(b".")`). -/
def endsWithDot (name : List Nat) : Bool := name.getLast? == some dot

/-- The reversed segment sequence produced by `name.rsplit(|x| *x == b'.')`. -/
def rsplitDot (name : List Nat) : List (List Nat) := (splitOnDot name).reverse

/-- The label sequence handed to the classifier by `List::suffix`: the
reversed split, with the leading empty segment consumed (`labels.next()`)
when the name ends with a dot. -/
def suffixLabels (name : List Nat) : List (List Nat) :=
  if endsWithDot name then (rsplitDot name).tail else rsplitDot name

/-- The suffix length after the FQDN adjustment (`if fqdn { len += 1; }`),
with the classifier's `usize` value reduced to its representable range and
the increment wrapping as in release mode. -/
def adjustedLen (len : Nat) (fqdn : Bool) : Nat :=
  if fqdn then (len % USIZE + 1) % USIZE else len % USIZE

/-- The rightmost label of a byte string:
`subdomain.rsplitn(2, |x| *x == b'.').next()`, i.e. the segment after the
last dot (the whole string when no dot occurs). -/
def lastLabel (s : List Nat) : List Nat := ((splitOnDot s).getLast?).getD []

/-- Embedding of `List::suffix`: split the name into labels right-to-left,
drop the empty label of a trailing dot, classify, apply the FQDN length
adjustment, then turn the length into a bounds-checked tail of the name
(`name.get(offset..)` is `none` when `offset > name.len()`). -/
def suffix (find : List (List Nat) → Info) (name : List Nat) : Option Suffix :=
  let fqdn := endsWithDot name
  let info := find (suffixLabels name)
  let len := adjustedLen info.len fqdn
  if len = 0 then none
  else
    let offset := wsub name.length len
    if offset ≤ name.length then some ⟨name.drop offset, fqdn, info.typ⟩
    else none

/-- Embedding of `List::domain`: take the suffix, reject names without room
for a subdomain label plus separator, walk one label left of the suffix
boundary and return the bounds-checked registrable tail. -/
def domain (find : List (List Nat) → Info) (name : List Nat) : Option Domain :=
  match suffix find name with
  | none => none
  | some sfx =>
    let name_len := name.length
    let suffix_len := sfx.bytes.length
    if name_len < wadd suffix_len 2 then none
    else
      let offset := wsub name_len (wadd 1 suffix_len)
      if offset ≤ name_len then
        let subdomain := name.take offset
        let root_label := lastLabel subdomain
        let registrable_len := wadd (wadd root_label.length 1) suffix_len
        let offset2 := wsub name_len registrable_len
        if offset2 ≤ name_len then some ⟨name.drop offset2, sfx⟩ else none
      else none

/-- Embedding of `normalise_dot`: strip one trailing dot from whichever of
the two operands is FQDN-terminated when the other is not (the left operand
via its stored flag, the right via its trailing byte); otherwise return
both unchanged.  The source would panic on an empty left operand with a
true flag; the total model returns the empty list there. -/
def normalise_dot (a : List Nat) (a_is_fqdn : Bool) (b : List Nat) :
    List Nat × List Nat :=
  match a_is_fqdn, endsWithDot b with
  | true, true => (a, b)
  | false, false => (a, b)
  | false, true =>
    if 0 < b.length then (a, b.take (b.length - 1)) else (a, b)
  | true, false => (a.take (a.length - 1), b)

/-- The shared body of every `PartialEq` impl in the source: normalise the
pair, then compare the byte strings for equality. -/
def eqNorm (a : List Nat) (fq : Bool) (b : List Nat) : Bool :=
  let p := normalise_dot a fq b
  p.1 == p.2

/-- Lexicographic byte-string comparison, as `<[u8] as Ord>::cmp`. -/
def cmpBytes : List Nat → List Nat → Ordering
  | [], [] => .eq
  | [], _ :: _ => .lt
  | _ :: _, [] => .gt
  | x :: xs, y :: ys =>
    if x < y then .lt else if y < x then .gt else cmpBytes xs ys

/-- The shared body of every `PartialOrd` impl in the source: normalise the
pair, then `Some(this.cmp(other))`. -/
def cmpNorm (a : List Nat) (fq : Bool) (b : List Nat) : Option Ordering :=
  let p := normalise_dot a fq b
  some (cmpBytes p.1 p.2)

/-- Equality of two suffix views (`impl PartialEq for Suffix`). -/
def Suffix.eq (a b : Suffix) : Bool := eqNorm a.bytes a.fqdn b.bytes

/-- Equality of a suffix view against a raw byte string or text operand
(`impl PartialEq<&[u8]> for Suffix`, `impl PartialEq<&str> for Suffix`). -/
def Suffix.eqBytes (a : Suffix) (b : List Nat) : Bool := eqNorm a.bytes a.fqdn b

/-- Ordering of two suffix views; models `PartialOrd::partial_cmp` for
`Suffix`, which always returns `Some`. -/
def Suffix.cmpOpt (a b : Suffix) : Option Ordering := cmpNorm a.bytes a.fqdn b.bytes

/-- Equality of two domain views (`impl PartialEq for Domain`): the FQDN
flag of the left operand is taken from its contained suffix. -/
def Domain.eq (a b : Domain) : Bool := eqNorm a.bytes a.suffix.fqdn b.bytes

/-- Equality of a domain view against a raw byte string or text operand. -/
def Domain.eqBytes (a : Domain) (b : List Nat) : Bool := eqNorm a.bytes a.suffix.fqdn b

/-- Ordering of two domain views; models `PartialOrd::partial_cmp` for
`Domain`, which always returns `Some`. -/
def Domain.cmpOpt (a b : Domain) : Option Ordering := cmpNorm a.bytes a.suffix.fqdn b.bytes

/-- A byte string with at most one trailing dot removed; the specification's
normal form for FQDN-insensitive comparison. -/
def stripDot (s : List Nat) : List Nat := if endsWithDot s then s.dropLast else s

/-- The classifier of the crate's own test module: the matched length is the
byte length of the rightmost label, the type is always absent. -/
def findFirstLabel : List (List Nat) → Info
  | l :: _ => ⟨l.length, none⟩
  | [] => ⟨0, none⟩

example : suffix findFirstLabel [99, 111, 109] = some ⟨[99, 111, 109], false, none⟩ := by decide

example : suffix findFirstLabel [46] = some ⟨[46], true, none⟩ := by decide

example : suffix findFirstLabel [] = none := by decide

example : domain findFirstLabel [101, 46, 99, 111] =
    some ⟨[101, 46, 99, 111], ⟨[99, 111], false, none⟩⟩ := by decide

example : domain findFirstLabel [99, 111, 109] = none := by decide

example : domain findFirstLabel [46] = none := by decide

/-! ### Arithmetic facts about the wrapped usize operations -/

lemma USIZE_pos : 0 < USIZE := by decide

lemma wsub_of_le {a b : Nat} (h : b ≤ a) (ha : a < USIZE) : wsub a b = a - b := by
  have hb : b < USIZE := Nat.lt_of_le_of_lt h ha
  unfold wsub
  rw [Nat.mod_eq_of_lt hb]
  have h1 : a + USIZE - b = USIZE + (a - b) := by omega
  rw [h1, Nat.add_mod_left, Nat.mod_eq_of_lt (by omega)]

lemma lt_wsub_of_lt {a b : Nat} (h : a < b) (hb : b < USIZE) : a < wsub a b := by
  unfold wsub
  rw [Nat.mod_eq_of_lt hb, Nat.mod_eq_of_lt (by omega)]
  omega

lemma adjustedLen_lt (len : Nat) (fq : Bool) : adjustedLen len fq < USIZE := by
  unfold adjustedLen
  cases fq <;> simp <;> exact Nat.mod_lt _ USIZE_pos

/-! ### Characterisation of `suffix` -/

lemma suffix_eq_some_iff (find : List (List Nat) → Info) (name : List Nat) (s : Suffix)
    (hn : name.length < USIZE) :
    suffix find name = some s ↔
      0 < adjustedLen (find (suffixLabels name)).len (endsWithDot name) ∧
      adjustedLen (find (suffixLabels name)).len (endsWithDot name) ≤ name.length ∧
      s = ⟨name.drop
            (name.length - adjustedLen (find (suffixLabels name)).len (endsWithDot name)),
           endsWithDot name, (find (suffixLabels name)).typ⟩ := by
  have hLlt : adjustedLen (find (suffixLabels name)).len (endsWithDot name) < USIZE :=
    adjustedLen_lt _ _
  simp only [suffix]
  set L := adjustedLen (find (suffixLabels name)).len (endsWithDot name) with hLdef
  by_cases h0 : L = 0
  · simp [h0]
  · rw [if_neg h0]
    by_cases hle : L ≤ name.length
    · rw [wsub_of_le hle hn, if_pos (Nat.sub_le _ _)]
      simp [eq_comm, Nat.pos_of_ne_zero h0, hle]
    · have hgt := lt_wsub_of_lt (Nat.lt_of_not_le hle) hLlt
      rw [if_neg (Nat.not_le.mpr hgt)]
      simp [hle]

lemma suffix_some_spec {find : List (List Nat) → Info} {name : List Nat} {s : Suffix}
    (hn : name.length < USIZE) (h : suffix find name = some s) :
    s.bytes = name.drop (name.length - s.bytes.length) ∧
    0 < s.bytes.length ∧ s.bytes.length ≤ name.length ∧
    s.fqdn = endsWithDot name ∧ s.typ = (find (suffixLabels name)).typ ∧
    s.bytes.length = adjustedLen (find (suffixLabels name)).len (endsWithDot name) := by
  obtain ⟨h0, hle, hs⟩ := (suffix_eq_some_iff find name s hn).1 h
  subst hs
  simp [List.length_drop, Nat.sub_sub_self hle, h0, hle]

lemma getLast?_eq_of_isSuffix {α : Type} {l₁ l₂ : List α} (h : l₁ <:+ l₂) (hne : l₁ ≠ []) :
    l₁.getLast? = l₂.getLast? := by
  obtain ⟨t, rfl⟩ := h
  rw [List.getLast?_append]
  cases hq : l₁.getLast? with
  | none => simp_all
  | some a => simp [Option.or]

lemma suffix_wf {find : List (List Nat) → Info} {name : List Nat} {s : Suffix}
    (hn : name.length < USIZE) (h : suffix find name = some s) :
    s.fqdn = endsWithDot s.bytes := by
  obtain ⟨hb, h0, _, hf, -, -⟩ := suffix_some_spec hn h
  have hsuf : s.bytes <:+ name := hb ▸ List.drop_suffix _ _
  have hne : s.bytes ≠ [] := List.ne_nil_of_length_pos h0
  have hlast := getLast?_eq_of_isSuffix hsuf hne
  rw [hf]
  unfold endsWithDot
  rw [hlast]

/-! ### Structure of the split into labels -/

lemma splitOnDot_ne_nil (s : List Nat) : splitOnDot s ≠ [] := by
  induction s with
  | nil => simp [splitOnDot]
  | cons b rest ih =>
    unfold splitOnDot
    by_cases hb : b = dot
    · simp [hb]
    · rw [if_neg hb]
      cases h : splitOnDot rest with
      | nil => simp
      | cons l ls => simp

lemma splitOnDot_cons_dot (rest : List Nat) :
    splitOnDot (dot :: rest) = [] :: splitOnDot rest := by
  rw [splitOnDot, if_pos rfl]

lemma splitOnDot_cons_ne {b : Nat} {rest l : List Nat} {ls : List (List Nat)}
    (hb : ¬ b = dot) (h : splitOnDot rest = l :: ls) :
    splitOnDot (b :: rest) = (b :: l) :: ls := by
  rw [splitOnDot, if_neg hb, h]

lemma splitOnDot_concat_dot (s : List Nat) :
    splitOnDot (s ++ [dot]) = splitOnDot s ++ [[]] := by
  induction s with
  | nil => simp [splitOnDot]
  | cons b rest ih =>
    by_cases hb : b = dot
    · subst hb
      rw [List.cons_append, splitOnDot_cons_dot, splitOnDot_cons_dot, ih, List.cons_append]
    · cases h : splitOnDot rest with
      | nil => exact absurd h (splitOnDot_ne_nil rest)
      | cons l ls =>
        rw [List.cons_append, splitOnDot_cons_ne hb (by rw [ih, h]; rfl),
            splitOnDot_cons_ne hb h, List.cons_append]
        rfl

lemma splitOnDot_eq_singleton {s l : List Nat} (h : splitOnDot s = [l]) : l = s := by
  induction s generalizing l with
  | nil =>
    simp only [splitOnDot] at h
    simp at h
    exact h
  | cons b rest ih =>
    by_cases hb : b = dot
    · subst hb
      rw [splitOnDot_cons_dot] at h
      cases hr : splitOnDot rest with
      | nil => exact absurd hr (splitOnDot_ne_nil rest)
      | cons l' ls => rw [hr] at h; simp at h
    · cases hr : splitOnDot rest with
      | nil => exact absurd hr (splitOnDot_ne_nil rest)
      | cons l' ls =>
        rw [splitOnDot_cons_ne hb hr] at h
        have hls : ls = [] := by
          cases ls with
          | nil => rfl
          | cons _ _ => simp at h
        subst hls
        have hl' : l' = rest := ih hr
        have hbl : b :: l' = l := by simpa using h
        rw [← hbl, hl']

lemma getLast?_cons_of_ne_nil {α : Type} {a : α} {l : List α} (h : l ≠ []) :
    (a :: l).getLast? = l.getLast? := by
  have : a :: l = [a] ++ l := rfl
  rw [this, List.getLast?_append]
  cases hq : l.getLast? with
  | none => simp_all
  | some x => simp [Option.or]

lemma lastLabel_cons_dot {rest : List Nat} : lastLabel (dot :: rest) = lastLabel rest := by
  unfold lastLabel
  rw [splitOnDot_cons_dot, getLast?_cons_of_ne_nil (splitOnDot_ne_nil rest)]

lemma lastLabel_cons_of_ne_dot {b : Nat} {rest l : List Nat} {ls : List (List Nat)}
    (hb : ¬ b = dot) (hr : splitOnDot rest = l :: ls) (hls : ls ≠ []) :
    lastLabel (b :: rest) = lastLabel rest := by
  unfold lastLabel
  rw [splitOnDot_cons_ne hb hr, hr, getLast?_cons_of_ne_nil hls, getLast?_cons_of_ne_nil hls]

lemma lastLabel_isSuffix (s : List Nat) : lastLabel s <:+ s := by
  induction s with
  | nil => exact List.suffix_refl _
  | cons b rest ih =>
    by_cases hb : b = dot
    · subst hb
      rw [lastLabel_cons_dot]
      exact ih.trans (List.suffix_cons _ _)
    · cases hr : splitOnDot rest with
      | nil => exact absurd hr (splitOnDot_ne_nil rest)
      | cons l ls =>
        cases hls : ls with
        | nil =>
          have hl : l = rest := splitOnDot_eq_singleton (by rw [hr, hls])
          unfold lastLabel
          rw [splitOnDot_cons_ne hb (hls ▸ hr)]
          simp [hl, List.suffix_refl]
        | cons l2 ls2 =>
          rw [lastLabel_cons_of_ne_dot hb hr (by rw [hls]; simp)]
          exact ih.trans (List.suffix_cons _ _)

lemma lastLabel_ne_nil {s : List Nat} (hne : s ≠ []) (hend : s.getLast? ≠ some dot) :
    lastLabel s ≠ [] := by
  induction s with
  | nil => exact absurd rfl hne
  | cons b rest ih =>
    by_cases hb : b = dot
    · subst hb
      have hrne : rest ≠ [] := by
        intro hc
        subst hc
        exact hend (by simp)
      rw [lastLabel_cons_dot]
      exact ih hrne (by rwa [getLast?_cons_of_ne_nil hrne] at hend)
    · cases hr : splitOnDot rest with
      | nil => exact absurd hr (splitOnDot_ne_nil rest)
      | cons l ls =>
        cases hls : ls with
        | nil =>
          unfold lastLabel
          rw [splitOnDot_cons_ne hb (hls ▸ hr)]
          simp
        | cons l2 ls2 =>
          have hrne : rest ≠ [] := by
            intro hc
            subst hc
            simp [splitOnDot] at hr
            simp [hr.2] at hls
          rw [lastLabel_cons_of_ne_dot hb hr (by rw [hls]; simp)]
          exact ih hrne (by rwa [getLast?_cons_of_ne_nil hrne] at hend)

/-! ### The label sequence of a dotted name -/

lemma endsWithDot_concat (s : List Nat) : endsWithDot (s ++ [dot]) = true := by
  unfold endsWithDot
  rw [List.getLast?_concat]
  simp

lemma suffixLabels_concat_dot {name : List Nat} (h : endsWithDot name = false) :
    suffixLabels (name ++ [dot]) = suffixLabels name := by
  unfold suffixLabels rsplitDot
  rw [endsWithDot_concat, if_pos rfl, if_neg (by simp [h]), splitOnDot_concat_dot]
  simp

/-! ### Trailing-dot structure and the normal form for comparison -/

lemma endsWithDot_iff {s : List Nat} : endsWithDot s = true ↔ ∃ t, s = t ++ [dot] := by
  unfold endsWithDot
  rw [beq_iff_eq, List.getLast?_eq_some_iff]

lemma dropLast_concat_dot {s : List Nat} (h : endsWithDot s = true) :
    s.dropLast ++ [dot] = s := by
  obtain ⟨t, rfl⟩ := endsWithDot_iff.1 h
  rw [List.dropLast_concat]

lemma length_pos_of_ends {s : List Nat} (h : endsWithDot s = true) : 0 < s.length := by
  obtain ⟨t, rfl⟩ := endsWithDot_iff.1 h
  simp

lemma stripDot_of_ends {s : List Nat} (h : endsWithDot s = true) :
    stripDot s = s.dropLast := by
  unfold stripDot
  rw [h]
  simp

lemma stripDot_of_not_ends {s : List Nat} (h : endsWithDot s = false) : stripDot s = s := by
  unfold stripDot
  rw [h]
  simp

lemma eqNorm_true_iff {a b : List Nat} {fq : Bool} (hwf : fq = endsWithDot a) :
    eqNorm a fq b = true ↔ stripDot a = stripDot b := by
  unfold eqNorm normalise_dot
  cases hfq : fq with
  | false =>
    have ha : endsWithDot a = false := by rw [← hwf, hfq]
    cases hb : endsWithDot b with
    | false =>
      simp only [beq_iff_eq]
      rw [stripDot_of_not_ends ha, stripDot_of_not_ends hb]
    | true =>
      rw [if_pos (length_pos_of_ends hb)]
      simp only [beq_iff_eq]
      rw [stripDot_of_not_ends ha, stripDot_of_ends hb, List.dropLast_eq_take]
  | true =>
    have ha : endsWithDot a = true := by rw [← hwf, hfq]
    cases hb : endsWithDot b with
    | false =>
      simp only [beq_iff_eq]
      rw [stripDot_of_ends ha, stripDot_of_not_ends hb, List.dropLast_eq_take]
    | true =>
      simp only [beq_iff_eq]
      rw [stripDot_of_ends ha, stripDot_of_ends hb]
      constructor
      · intro h; rw [h]
      · intro h
        rw [← dropLast_concat_dot ha, ← dropLast_concat_dot hb, h]

lemma cmpBytes_eq_iff : ∀ (a b : List Nat), cmpBytes a b = .eq ↔ a = b := by
  intro a
  induction a with
  | nil => intro b; cases b <;> simp [cmpBytes]
  | cons x xs ih =>
    intro b
    cases b with
    | nil => simp [cmpBytes]
    | cons y ys =>
      unfold cmpBytes
      rcases Nat.lt_trichotomy x y with h | h | h
      · rw [if_pos h]
        simp only [List.cons.injEq]
        constructor
        · intro hc; cases hc
        · rintro ⟨rfl, -⟩; omega
      · subst h
        rw [if_neg (by omega), if_neg (by omega)]
        simp [ih]
      · rw [if_neg (by omega), if_pos h]
        simp only [List.cons.injEq]
        constructor
        · intro hc; cases hc
        · rintro ⟨rfl, -⟩; omega

lemma cmpBytes_swap : ∀ (a b : List Nat), cmpBytes b a = (cmpBytes a b).swap := by
  intro a
  induction a with
  | nil => intro b; cases b <;> simp [cmpBytes, Ordering.swap]
  | cons x xs ih =>
    intro b
    cases b with
    | nil => simp [cmpBytes, Ordering.swap]
    | cons y ys =>
      unfold cmpBytes
      rcases Nat.lt_trichotomy x y with h | h | h
      · rw [if_pos h, if_neg (by omega), if_pos h]
        rfl
      · subst h
        rw [if_neg (by omega), if_neg (by omega), if_neg (by omega), if_neg (by omega)]
        exact ih ys
      · rw [if_pos h, if_neg (by omega), if_pos h]
        rfl

lemma cmpNorm_eq_iff (a : List Nat) (fq : Bool) (b : List Nat) :
    cmpNorm a fq b = some .eq ↔ eqNorm a fq b = true := by
  unfold cmpNorm eqNorm
  simp [cmpBytes_eq_iff, beq_iff_eq]

lemma cmpNorm_swap {a b : List Nat} {fa fb : Bool}
    (hwa : fa = endsWithDot a) (hwb : fb = endsWithDot b) :
    cmpNorm a fa b = (cmpNorm b fb a).map Ordering.swap := by
  unfold cmpNorm normalise_dot
  cases hfa : fa with
  | false =>
    have ha : endsWithDot a = false := by rw [← hwa, hfa]
    cases hfb : fb with
    | false =>
      have hb : endsWithDot b = false := by rw [← hwb, hfb]
      rw [ha, hb]
      simp [cmpBytes_swap a b]
    | true =>
      have hb : endsWithDot b = true := by rw [← hwb, hfb]
      rw [ha, hb, if_pos (length_pos_of_ends hb)]
      simp [cmpBytes_swap (b.take (b.length - 1)) a]
  | true =>
    have ha : endsWithDot a = true := by rw [← hwa, hfa]
    cases hfb : fb with
    | false =>
      have hb : endsWithDot b = false := by rw [← hwb, hfb]
      rw [ha, hb, if_pos (length_pos_of_ends ha)]
      simp [cmpBytes_swap b (a.take (a.length - 1))]
    | true =>
      have hb : endsWithDot b = true := by rw [← hwb, hfb]
      rw [ha, hb]
      simp [cmpBytes_swap a b]

lemma eqNorm_symm {a b : List Nat} {fa fb : Bool}
    (hwa : fa = endsWithDot a) (hwb : fb = endsWithDot b) :
    eqNorm a fa b = eqNorm b fb a := by
  have h1 := eqNorm_true_iff (b := b) hwa
  have h2 := eqNorm_true_iff (b := a) hwb
  cases hA : eqNorm a fa b with
  | true => rw [h2.mpr ((h1.mp hA).symm)]
  | false =>
    cases hB : eqNorm b fb a with
    | false => rfl
    | true => exact absurd (h1.mpr ((h2.mp hB).symm)) (by rw [hA]; simp)

/-! ### Characterisation of `domain` -/

lemma domain_eq_some_spec {find : List (List Nat) → Info} {name : List Nat} {d : Domain}
    (hn : name.length + 2 < USIZE) (h : domain find name = some d) :
    ∃ sfx, suffix find name = some sfx ∧ d.suffix = sfx ∧
      sfx.bytes.length + 2 ≤ name.length ∧
      d.bytes = name.drop (name.length -
        ((lastLabel (name.take (name.length - sfx.bytes.length - 1))).length
          + 1 + sfx.bytes.length)) ∧
      (lastLabel (name.take (name.length - sfx.bytes.length - 1))).length
          + 1 + sfx.bytes.length ≤ name.length := by
  have hn' : name.length < USIZE := by omega
  unfold domain at h
  cases hsfx : suffix find name with
  | none => rw [hsfx] at h; cases h
  | some sfx =>
    rw [hsfx] at h
    simp only at h
    obtain ⟨-, hpos, hle, -, -, -⟩ := suffix_some_spec hn' hsfx
    have hwadd2 : wadd sfx.bytes.length 2 = sfx.bytes.length + 2 :=
      Nat.mod_eq_of_lt (by omega)
    rw [hwadd2] at h
    by_cases hshort : name.length < sfx.bytes.length + 2
    · rw [if_pos hshort] at h; cases h
    · rw [if_neg hshort] at h
      push_neg at hshort
      have hwadd1 : wadd 1 sfx.bytes.length = 1 + sfx.bytes.length :=
        Nat.mod_eq_of_lt (by omega)
      rw [hwadd1, wsub_of_le (by omega) hn'] at h
      have hidx : name.length - (1 + sfx.bytes.length)
          = name.length - sfx.bytes.length - 1 := by omega
      rw [hidx, if_pos (show name.length - sfx.bytes.length - 1 ≤ name.length by omega)] at h
      have hrle : (lastLabel (name.take (name.length - sfx.bytes.length - 1))).length
          ≤ name.length - sfx.bytes.length - 1 := by
        have hsuf := (lastLabel_isSuffix (name.take (name.length - sfx.bytes.length - 1))).length_le
        rw [List.length_take] at hsuf
        omega
      have hwaddr : wadd (lastLabel (name.take (name.length - sfx.bytes.length - 1))).length 1
          = (lastLabel (name.take (name.length - sfx.bytes.length - 1))).length + 1 :=
        Nat.mod_eq_of_lt (by omega)
      have hwaddrl : wadd
          ((lastLabel (name.take (name.length - sfx.bytes.length - 1))).length + 1)
          sfx.bytes.length
          = (lastLabel (name.take (name.length - sfx.bytes.length - 1))).length + 1
            + sfx.bytes.length :=
        Nat.mod_eq_of_lt (by omega)
      rw [hwaddr, hwaddrl, wsub_of_le (by omega) hn', if_pos (Nat.sub_le _ _)] at h
      obtain rfl := (Option.some.inj h).symm
      exact ⟨sfx, rfl, rfl, hshort, rfl, by omega⟩

lemma domain_wf {find : List (List Nat) → Info} {name : List Nat} {d : Domain}
    (hn : name.length + 2 < USIZE) (h : domain find name = some d) :
    d.suffix.fqdn = endsWithDot d.bytes ∧
    d.suffix.fqdn = endsWithDot d.suffix.bytes ∧
    2 ≤ d.bytes.length := by
  obtain ⟨sfx, hsfx, hds, hL2, hbytes, hregle⟩ := domain_eq_some_spec hn h
  have hn' : name.length < USIZE := by omega
  obtain ⟨-, hpos, -, hf, -, -⟩ := suffix_some_spec hn' hsfx
  have hwfs := suffix_wf hn' hsfx
  have hdlen : d.bytes.length
      = (lastLabel (name.take (name.length - sfx.bytes.length - 1))).length
        + 1 + sfx.bytes.length := by
    rw [hbytes, List.length_drop]
    omega
  have hdne : d.bytes ≠ [] := by
    intro hc
    rw [hc] at hdlen
    simp at hdlen
    omega
  have hdsuf : d.bytes <:+ name := hbytes ▸ List.drop_suffix _ _
  have hlast := getLast?_eq_of_isSuffix hdsuf hdne
  refine ⟨?_, hds ▸ hwfs, by omega⟩
  rw [hds, hf]
  unfold endsWithDot
  rw [hlast]

lemma drop_pred_of_ends {name : List Nat} (h : endsWithDot name = true) :
    name.drop (name.length - 1) = [dot] := by
  obtain ⟨t, rfl⟩ := endsWithDot_iff.1 h
  rw [List.length_append]
  simp

/-! ### Claims -/

/-- C1: for every input name and classifier result, `suffix` never reads out
of bounds: a returned view is always a tail of the name, and whenever the
FQDN-adjusted length exceeds the name's byte length (an inconsistent
classifier) the wrapped offset fails the `name.get(offset..)` bounds check
and `suffix` returns `none`. -/
theorem suffix_no_oob (find : List (List Nat) → Info) (name : List Nat)
    (hn : name.length < USIZE) :
    (∀ s, suffix find name = some s → s.bytes <:+ name) ∧
    (name.length < adjustedLen (find (suffixLabels name)).len (endsWithDot name) →
      suffix find name = none) := by
  constructor
  · intro s hs
    obtain ⟨hb, -, -, -, -, -⟩ := suffix_some_spec hn hs
    exact hb ▸ List.drop_suffix _ _
  · intro hlt
    cases hs : suffix find name with
    | none => rfl
    | some s =>
      obtain ⟨-, -, hle, -, -, hlen⟩ := suffix_some_spec hn hs
      omega

/-- Witness for C1: on the one-byte name `"a"` a classifier answering
length 5 makes `suffix` return `none`. -/
theorem suffix_no_oob_w : suffix (fun _ => ⟨5, none⟩) [97] = none :=
  (suffix_no_oob (fun _ => ⟨5, none⟩) [97] (by decide)).2 (by decide)

/-- C5: every view constructed by `suffix` is a tail of the original name and
is never empty. -/
theorem suffix_tail_nonempty (find : List (List Nat) → Info) (name : List Nat) (s : Suffix)
    (hn : name.length < USIZE) (h : suffix find name = some s) :
    s.bytes <:+ name ∧ s.bytes ≠ [] := by
  obtain ⟨hb, h0, -, -, -, -⟩ := suffix_some_spec hn h
  exact ⟨hb ▸ List.drop_suffix _ _, List.ne_nil_of_length_pos h0⟩

/-- Witness for C5 at the name `"com"` with the test classifier. -/
theorem suffix_tail_nonempty_w :
    ([99, 111, 109] : List Nat) <:+ [99, 111, 109] ∧ ([99, 111, 109] : List Nat) ≠ [] :=
  suffix_tail_nonempty findFirstLabel [99, 111, 109] ⟨[99, 111, 109], false, none⟩
    (by decide) (by decide)

/-- C8: `domain` is absent whenever the name is shorter than the extracted
suffix plus two bytes (no room for a subdomain label and its separator). -/
theorem domain_none_of_short (find : List (List Nat) → Info) (name : List Nat) (s : Suffix)
    (hn : name.length + 2 < USIZE) (h : suffix find name = some s)
    (hshort : name.length < s.bytes.length + 2) :
    domain find name = none := by
  have hn' : name.length < USIZE := by omega
  obtain ⟨-, -, hle, -, -, -⟩ := suffix_some_spec hn' h
  unfold domain
  rw [h]
  simp only
  rw [show wadd s.bytes.length 2 = s.bytes.length + 2 from Nat.mod_eq_of_lt (by omega),
    if_pos hshort]

/-- Witness for C8: the bare public suffix `"com"` has no registrable
domain, while its suffix is still found. -/
theorem domain_none_of_short_w : domain findFirstLabel [99, 111, 109] = none :=
  domain_none_of_short findFirstLabel [99, 111, 109] ⟨[99, 111, 109], false, none⟩
    (by decide) (by decide) (by decide)

/-- C10: on a name with a trailing dot where the classifier reports no match
(`Info { len: 0, typ: None }`), the FQDN adjustment makes the length 1 and
the suffix view is exactly the lone trailing dot. -/
theorem suffix_trailing_dot_no_match (find : List (List Nat) → Info) (name : List Nat)
    (hn : name.length < USIZE) (hf : endsWithDot name = true)
    (h : find (suffixLabels name) = ⟨0, none⟩) :
    suffix find name = some ⟨[dot], true, none⟩ := by
  have hadj : adjustedLen (Info.mk (0 : Nat) (none : Option Typ)).len true = 1 := by decide
  rw [suffix_eq_some_iff find name _ hn, h, hf, hadj]
  exact ⟨by omega, length_pos_of_ends hf, by rw [drop_pred_of_ends hf]⟩

/-- Witness for C10 at the name `"a."`. -/
theorem suffix_trailing_dot_no_match_w :
    suffix (fun _ => ⟨0, none⟩) [97, 46] = some ⟨[dot], true, none⟩ :=
  suffix_trailing_dot_no_match (fun _ => ⟨0, none⟩) [97, 46] (by decide) (by decide) rfl

/-- C9: for the lone-dot input the classifier is invoked with the sequence
holding one empty label (the trailing empty label having been removed); when
it reports length 0 there, the FQDN adjustment makes the length 1, the
suffix is the single dot with the FQDN flag set, and the domain is absent. -/
theorem suffix_root_dot (find : List (List Nat) → Info) (t : Option Typ)
    (h : find [[]] = ⟨0, t⟩) :
    suffixLabels [dot] = [[]] ∧
    suffix find [dot] = some ⟨[dot], true, t⟩ ∧
    domain find [dot] = none := by
  have hl : suffixLabels [dot] = [[]] := by decide
  have hadj : adjustedLen (Info.mk (0 : Nat) t).len true = 1 := by
    show (0 % USIZE + 1) % USIZE = 1
    decide
  have hsfx : suffix find [dot] = some ⟨[dot], true, t⟩ := by
    rw [suffix_eq_some_iff find [dot] _ (by decide), hl, h]
    rw [show endsWithDot [dot] = true from rfl, hadj]
    exact ⟨by omega, by decide, rfl⟩
  refine ⟨hl, hsfx, ?_⟩
  unfold domain
  rw [hsfx]
  simp only
  rw [show wadd ([dot] : List Nat).length 2 = 3 from by decide, if_pos (by decide)]

/-- Witness for C9 with a classifier answering 0 on every label sequence. -/
theorem suffix_root_dot_w :
    suffixLabels [dot] = [[]] ∧
    suffix (fun _ => ⟨0, none⟩) [dot] = some ⟨[dot], true, none⟩ ∧
    domain (fun _ => ⟨0, none⟩) [dot] = none :=
  suffix_root_dot (fun _ => ⟨0, none⟩) none rfl

/-- C3 counterexample: with a classifier that never matches, `suffix` of
`"x"` is absent while `suffix` of `"x."` is the lone dot, so the two calls do
not both yield views, let alone views differing only by the trailing dot. -/
theorem suffix_fqdn_append_cex :
    suffix (fun _ => ⟨0, none⟩) [120] = none ∧
    suffix (fun _ => ⟨0, none⟩) ([120] ++ [dot]) = some ⟨[dot], true, none⟩ := by
  constructor
  · decide
  · decide

/-- C3 (amended): whenever `suffix` finds a view on a name without a
trailing dot, the classifier sees the same label sequence for the dotted
name, the view for the dotted name is the original view extended by exactly
the trailing dot, and the two views are equal under the FQDN-aware
equality. -/
theorem suffix_fqdn_append (find : List (List Nat) → Info) (name : List Nat) (s : Suffix)
    (hn : name.length + 1 < USIZE) (hnd : endsWithDot name = false)
    (h : suffix find name = some s) :
    suffix find (name ++ [dot]) = some ⟨s.bytes ++ [dot], true, s.typ⟩ ∧
    Suffix.eq s ⟨s.bytes ++ [dot], true, s.typ⟩ = true := by
  have hn' : name.length < USIZE := by omega
  obtain ⟨hb, h0, hle, hf, ht, hlen⟩ := suffix_some_spec hn' h
  have hL0 : (find (suffixLabels name)).len % USIZE = s.bytes.length := by
    have hx := hlen
    rw [hnd] at hx
    unfold adjustedLen at hx
    simpa using hx.symm
  have hadj : adjustedLen (find (suffixLabels name)).len true = s.bytes.length + 1 := by
    unfold adjustedLen
    rw [if_pos rfl, hL0, Nat.mod_eq_of_lt (by omega)]
  constructor
  · rw [suffix_eq_some_iff find _ _ (by rw [List.length_append]; simpa using hn),
      suffixLabels_concat_dot hnd, endsWithDot_concat, hadj]
    refine ⟨by omega, ?_, ?_⟩
    · rw [List.length_append]
      simp
      omega
    · rw [List.length_append]
      have hidx : name.length + ([dot] : List Nat).length - (s.bytes.length + 1)
          = name.length - s.bytes.length := by
        simp
      rw [hidx, List.drop_append_of_le_length (by omega), ← hb, ht]
  · have hwfs := suffix_wf hn' h
    show eqNorm s.bytes s.fqdn (s.bytes ++ [dot]) = true
    rw [eqNorm_true_iff hwfs,
      stripDot_of_not_ends (by rw [← hwfs, hf, hnd]),
      stripDot_of_ends (endsWithDot_concat _), List.dropLast_concat]

/-- Witness for C3 at the name `"c"` with the test classifier. -/
theorem suffix_fqdn_append_w :
    suffix findFirstLabel ([99] ++ [dot]) = some ⟨[99] ++ [dot], true, none⟩ ∧
    Suffix.eq ⟨[99], false, none⟩ ⟨[99] ++ [dot], true, none⟩ = true :=
  suffix_fqdn_append findFirstLabel [99] ⟨[99], false, none⟩ (by decide) (by decide)
    (by decide)

/-- C2: under the well-formedness invariant of constructed views (the FQDN
flag mirrors a trailing dot), `normalise_dot` strips exactly one trailing
dot from whichever operand is FQDN-terminated when the other is not and
otherwise compares the raw bytes unchanged, so the resulting equality holds
exactly when the operands agree after discarding at most one trailing dot
each: dot-insensitive at the end, byte-exact everywhere else. -/
theorem eq_fqdn_normalised (a b : List Nat) (fq : Bool) (hwf : fq = endsWithDot a) :
    normalise_dot a fq b
      = (if fq = true ∧ endsWithDot b = false then a.dropLast else a,
         if fq = false ∧ endsWithDot b = true then b.dropLast else b) ∧
    (eqNorm a fq b = true ↔ stripDot a = stripDot b) := by
  refine ⟨?_, eqNorm_true_iff hwf⟩
  unfold normalise_dot
  cases hfq : fq with
  | false =>
    cases hb : endsWithDot b with
    | false => simp
    | true =>
      rw [if_pos (length_pos_of_ends hb)]
      simp [List.dropLast_eq_take]
  | true =>
    cases hb : endsWithDot b with
    | false => simp [List.dropLast_eq_take]
    | true => simp

/-- Witness for C2: the suffix view of `"com."` equals the bare view of
`"com"`, the concrete cross-FQDN comparison of the specification. -/
theorem eq_fqdn_normalised_w :
    Suffix.eq ⟨[99, 111, 109, dot], true, none⟩ ⟨[99, 111, 109], false, none⟩ = true :=
  ((eq_fqdn_normalised [99, 111, 109, dot] [99, 111, 109] true (by decide)).2).mpr
    (by decide)

/-- C4 counterexample: with the contract-abiding no-match classifier
(`Info { len: 0, typ: None }`), the FQDN input `"aa."` has the lone-dot
suffix and the registrable domain `"aa."`, whose bytes do not end with a
dot followed by the suffix bytes; and the valid FQDN `"x.y."` yields the
domain `"y."`, one byte shorter than the suffix length plus two.  Both
parts of the unconditional invariant fail on reachable inputs. -/
theorem domain_dot_suffix_cex :
    domain (fun _ => ⟨0, none⟩) [97, 97, 46]
      = some ⟨[97, 97, 46], ⟨[46], true, none⟩⟩ ∧
    ¬ ((dot :: [46]) <:+ [97, 97, 46]) ∧
    domain (fun _ => ⟨0, none⟩) [120, 46, 121, 46]
      = some ⟨[121, 46], ⟨[46], true, none⟩⟩ ∧
    ([121, 46] : List Nat).length < ([46] : List Nat).length + 2 :=
  ⟨by decide, by decide, by decide, by decide⟩

/-- C4 (amended): every domain view is a tail of the name, ends with its
suffix bytes and keeps at least one byte before them; the claimed stronger
form — ending with a dot followed by the suffix bytes, with at least one
label byte before that dot (length at least suffix plus two) — holds
exactly under the label-boundary conditions the counterexample shows to be
necessary: the byte preceding the suffix is a dot, and the byte before
that dot is not another dot (no empty label). -/
theorem domain_ends_with_dot_suffix (find : List (List Nat) → Info) (name : List Nat)
    (d : Domain) (hn : name.length + 2 < USIZE) (h : domain find name = some d) :
    (d.suffix.bytes <:+ d.bytes ∧ d.bytes <:+ name ∧
      d.suffix.bytes.length + 1 ≤ d.bytes.length) ∧
    (name[name.length - d.suffix.bytes.length - 1]? = some dot →
      ¬ name[name.length - d.suffix.bytes.length - 2]? = some dot →
      d.suffix.bytes.length + 2 ≤ d.bytes.length ∧
      (dot :: d.suffix.bytes) <:+ d.bytes) := by
  obtain ⟨sfx, hsfx, hds, hL2, hbytes, hregle⟩ := domain_eq_some_spec hn h
  rw [hds]
  have hn' : name.length < USIZE := by omega
  obtain ⟨hbs, hpos, hle, -, -, -⟩ := suffix_some_spec hn' hsfx
  have hdlen : d.bytes.length
      = (lastLabel (name.take (name.length - sfx.bytes.length - 1))).length
        + 1 + sfx.bytes.length := by
    rw [hbytes, List.length_drop]
    omega
  constructor
  · refine ⟨?_, hbytes ▸ List.drop_suffix _ _, by omega⟩
    rw [hbytes]
    nth_rewrite 1 [hbs]
    exact List.drop_suffix_drop_left name (by omega)
  · intro hdot hlab
    have hoffpos : 1 ≤ name.length - sfx.bytes.length - 1 := by omega
    have htklen : (name.take (name.length - sfx.bytes.length - 1)).length
        = name.length - sfx.bytes.length - 1 := by
      rw [List.length_take]
      omega
    have htake_ne : name.take (name.length - sfx.bytes.length - 1) ≠ [] := by
      intro hc
      rw [hc] at htklen
      simp at htklen
      omega
    have hlastoff : (name.take (name.length - sfx.bytes.length - 1)).getLast?
        = name[name.length - sfx.bytes.length - 2]? := by
      rw [List.getLast?_eq_getElem?, htklen,
        show name.length - sfx.bytes.length - 1 - 1 = name.length - sfx.bytes.length - 2
          from by omega]
      exact List.getElem?_take_of_lt (by omega)
    have hrne : lastLabel (name.take (name.length - sfx.bytes.length - 1)) ≠ [] :=
      lastLabel_ne_nil htake_ne (by rw [hlastoff]; exact hlab)
    have hr1 : 1 ≤ (lastLabel (name.take (name.length - sfx.bytes.length - 1))).length :=
      List.length_pos.mpr hrne
    refine ⟨by omega, ?_⟩
    have hidx : name.length - sfx.bytes.length - 1 < name.length := by omega
    have hdc : dot :: sfx.bytes = name.drop (name.length - sfx.bytes.length - 1) := by
      rw [List.drop_eq_getElem_cons hidx]
      congr 1
      · have h1 := hdot
        rw [List.getElem?_eq_getElem hidx] at h1
        exact (Option.some.inj h1).symm
      · rw [show name.length - sfx.bytes.length - 1 + 1 = name.length - sfx.bytes.length
          from by omega, ← hbs]
    rw [hdc, hbytes]
    exact List.drop_suffix_drop_left name (by omega)

/-- Witness for C4 at the name `"a.co"` with the test classifier, where the
label-boundary conditions hold. -/
theorem domain_ends_with_dot_suffix_w :
    ([99, 111] : List Nat).length + 2 ≤ ([97, 46, 99, 111] : List Nat).length ∧
    (dot :: [99, 111]) <:+ [97, 46, 99, 111] :=
  (domain_ends_with_dot_suffix findFirstLabel [97, 46, 99, 111]
    ⟨[97, 46, 99, 111], ⟨[99, 111], false, none⟩⟩
    (by decide) (by decide)).2 (by decide) (by decide)

/-- C6 counterexample: three views constructed by `suffix` with the test
classifier on which the normalised comparison is not transitive, hence no
total order: `"co."` orders above `"co-x."`, which orders equal to
`"co-x"`, yet `"co."` orders below `"co-x"`. -/
theorem cmp_not_total_order_cex :
    suffix findFirstLabel [99, 111, 46] = some ⟨[99, 111, 46], true, none⟩ ∧
    suffix findFirstLabel [99, 111, 45, 120, 46]
      = some ⟨[99, 111, 45, 120, 46], true, none⟩ ∧
    suffix findFirstLabel [99, 111, 45, 120] = some ⟨[99, 111, 45, 120], false, none⟩ ∧
    Suffix.cmpOpt ⟨[99, 111, 46], true, none⟩ ⟨[99, 111, 45, 120, 46], true, none⟩
      = some .gt ∧
    Suffix.cmpOpt ⟨[99, 111, 45, 120, 46], true, none⟩ ⟨[99, 111, 45, 120], false, none⟩
      = some .eq ∧
    Suffix.cmpOpt ⟨[99, 111, 46], true, none⟩ ⟨[99, 111, 45, 120], false, none⟩
      = some .lt := by
  refine ⟨by decide, by decide, by decide, by decide, by decide, by decide⟩

/-- C6 (amended): the normalised comparison of suffix and domain views is
total (always `some`), reverses under operand swap, and orders two views as
equal exactly when the FQDN-aware equality holds; transitivity across views
of mixed FQDN termination fails, so it is not a total order. -/
theorem cmp_total_agrees_eq (a b : Suffix) (da db : Domain)
    (hwa : a.fqdn = endsWithDot a.bytes) (hwb : b.fqdn = endsWithDot b.bytes)
    (hda : da.suffix.fqdn = endsWithDot da.bytes)
    (hdb : db.suffix.fqdn = endsWithDot db.bytes) :
    (Suffix.cmpOpt a b).isSome = true ∧
    Suffix.cmpOpt a b = (Suffix.cmpOpt b a).map Ordering.swap ∧
    (Suffix.cmpOpt a b = some .eq ↔ Suffix.eq a b = true) ∧
    (Domain.cmpOpt da db).isSome = true ∧
    Domain.cmpOpt da db = (Domain.cmpOpt db da).map Ordering.swap ∧
    (Domain.cmpOpt da db = some .eq ↔ Domain.eq da db = true) :=
  ⟨rfl, cmpNorm_swap hwa hwb, cmpNorm_eq_iff _ _ _,
    rfl, cmpNorm_swap hda hdb, cmpNorm_eq_iff _ _ _⟩

/-- Witness for the amended C6 at the views of `"com."` and `"com"`. -/
theorem cmp_total_agrees_eq_w :
    Suffix.cmpOpt ⟨[99, 111, 109, dot], true, none⟩ ⟨[99, 111, 109], false, none⟩
      = some .eq :=
  ((cmp_total_agrees_eq ⟨[99, 111, 109, dot], true, none⟩ ⟨[99, 111, 109], false, none⟩
      ⟨[101, 46, 99, 111], ⟨[99, 111], false, none⟩⟩
      ⟨[101, 46, 99, 111], ⟨[99, 111], false, none⟩⟩
      (by decide) (by decide) (by decide) (by decide)).2.2.1).mpr (by decide)

/-- C7: for views constructed by `suffix` and by `domain`, equality is
symmetric and the ordering answers "equal" exactly when equality holds. -/
theorem eq_symm_cmp_agrees (f1 f2 g1 g2 : List (List Nat) → Info)
    (n1 n2 m1 m2 : List Nat) (a b : Suffix) (da db : Domain)
    (h1 : n1.length < USIZE) (h2 : n2.length < USIZE)
    (h3 : m1.length + 2 < USIZE) (h4 : m2.length + 2 < USIZE)
    (ha : suffix f1 n1 = some a) (hb : suffix f2 n2 = some b)
    (hda : domain g1 m1 = some da) (hdb : domain g2 m2 = some db) :
    Suffix.eq a b = Suffix.eq b a ∧
    (Suffix.cmpOpt a b = some .eq ↔ Suffix.eq a b = true) ∧
    Domain.eq da db = Domain.eq db da ∧
    (Domain.cmpOpt da db = some .eq ↔ Domain.eq da db = true) :=
  ⟨eqNorm_symm (suffix_wf h1 ha) (suffix_wf h2 hb), cmpNorm_eq_iff _ _ _,
    eqNorm_symm (domain_wf h3 hda).1 (domain_wf h4 hdb).1, cmpNorm_eq_iff _ _ _⟩

/-- Witness for C7 at the views of `"com"` and `"com."` and the domains of
`"e.co"`. -/
theorem eq_symm_cmp_agrees_w :
    Suffix.eq ⟨[99, 111, 109], false, none⟩ ⟨[99, 111, 109, 46], true, none⟩
      = Suffix.eq ⟨[99, 111, 109, 46], true, none⟩ ⟨[99, 111, 109], false, none⟩ :=
  (eq_symm_cmp_agrees findFirstLabel findFirstLabel findFirstLabel findFirstLabel
    [99, 111, 109] [99, 111, 109, 46] [101, 46, 99, 111] [101, 46, 99, 111]
    ⟨[99, 111, 109], false, none⟩ ⟨[99, 111, 109, 46], true, none⟩
    ⟨[101, 46, 99, 111], ⟨[99, 111], false, none⟩⟩
    ⟨[101, 46, 99, 111], ⟨[99, 111], false, none⟩⟩
    (by decide) (by decide) (by decide) (by decide)
    (by decide) (by decide) (by decide) (by decide)).1

end Psl
